import Mathlib

/- Verification model of src/functions/data_prepare.py: a one-shot data
preparation script that loads a whitespace-delimited speaker metadata table,
matches rows against per-speaker audio directories, shuffles and splits the
record list by ratio, and emits one JSON manifest per split.

Modelling conventions:
* Python strings are Lean String; splitting is modelled character-wise on
  String.data so that every definition evaluates in the kernel.
* Python list indexing errors and division by zero are modelled with Except
  over an explicit error type.
* Machine integers are Nat; Python3 true division followed by int(...) on
  nonnegative values is modelled as Nat floor division.
* Python floats (the duration sample_count / 16000.0) are modelled as exact
  rationals.
* The filesystem (os.listdir) and the external audio decoder (read_audio)
  are inputs to the model: a directory listing, a per-speaker file listing,
  and a sample-count oracle.
-/

/-- One parsed line of the metadata table: (speaker_id, region label, sex label). -/
structure MetaRow where
  speaker_id : String
  region : String
  sex : String
deriving DecidableEq, Repr

/-- One matched audio record: (wav path, region label, sex label);
the Python code stores it as the list [path_wav, regions, Sex]. -/
structure AudioRecord where
  path : String
  regions : String
  sex : String
deriving DecidableEq, Repr

/-- Python runtime errors that the script can actually raise on the modelled paths. -/
inductive PyErr where
  | indexError
  | zeroDivisionError
deriving DecidableEq, Repr

/-- Split a character list at every character satisfying p, keeping empty
segments, exactly like Python str.split(sep) keeps empty fields.
The result is always nonempty. -/
def splitCharsP (p : Char → Bool) : List Char → List (List Char)
  | [] => [[]]
  | x :: xs =>
    match splitCharsP p xs, p x with
    | r, true => [] :: r
    | [], false => [[x]]
    | y :: ys, false => (x :: y) :: ys

/-- Model of Python str.strip().split(): split on whitespace and drop empty
tokens (once empty tokens are dropped, the strip() is redundant). -/
def pySplitWs (s : String) : List String :=
  ((splitCharsP (fun c => c.isWhitespace) s.data).filter (fun t => t ≠ [])).map
    (fun t => ⟨t⟩)

/-- load_in4 (data_prepare.py lines 166-186): for each line i of the metadata
file, compute i.strip().split() and append [t[0], t[1], t[2]]; a line with
fewer than 3 tokens raises IndexError, aborting the whole load. -/
def load_in4 : List String → Except PyErr (List MetaRow)
  | [] => .ok []
  | l :: rest =>
    match (pySplitWs l)[0]?, (pySplitWs l)[1]?, (pySplitWs l)[2]? with
    | some a, some b, some c =>
      match load_in4 rest with
      | .ok rs => .ok (⟨a, b, c⟩ :: rs)
      | .error e => .error e
    | _, _, _ => .error .indexError

example : load_in4 [("spk1 north male")] = .ok [⟨("spk1"), ("north"), ("male")⟩] := rfl
example : load_in4 [("spk1  north male extra"), ("x y")] = .error .indexError := rfl

/-- Model of .replace of a backslash by a forward slash: since the pattern is a
single character, this is a character map over the string. -/
def normSlash (s : String) : String :=
  ⟨s.data.map (fun c => if c = ('\\') then ('/') else c)⟩

/-- Model of os.path.join(os.path.join(root, id), name).replace of backslashes:
POSIX join inserts a single forward-slash separator. -/
def mkWavPath (root id name : String) : String :=
  normSlash (root ++ ("/") ++ id ++ ("/") ++ name)

/-- The AudioRecord built for one metadata row and one file name
(data_prepare.py lines 208-209). -/
def mkRec (root : String) (r : MetaRow) (w : String) : AudioRecord :=
  ⟨mkWavPath root r.speaker_id w, r.region, r.sex⟩

/-- The records one metadata row contributes (data_prepare.py lines 205-209):
for every entry i of os.listdir(root) equal to the row's speaker id, one
record per file of that speaker's directory. dirs models os.listdir(root);
files models os.listdir(join(root, id)). -/
def dirMatches (root : String) (dirs : List String) (files : String → List String)
    (r : MetaRow) : List AudioRecord :=
  (dirs.map (fun i =>
    if i = r.speaker_id then (files r.speaker_id).map (mkRec root r) else [])).flatten

/-- The flat infor_wav list (data_prepare.py lines 202-209): rows are
processed in metadata order, appending each row's matches. -/
def infor_wav (root : String) (dirs : List String) (files : String → List String)
    (rows : List MetaRow) : List AudioRecord :=
  (rows.map (dirMatches root dirs files)).flatten

/-- transform_data (data_prepare.py lines 188-218): load the metadata,
build infor_wav, then re-index it as the insertion-ordered dict
mapping idx to the singleton list holding infor_wav at idx. -/
def transform_data (root : String) (dirs : List String) (files : String → List String)
    (metaLines : List String) : Except PyErr (List (Nat × List AudioRecord)) :=
  match load_in4 metaLines with
  | .error e => .error e
  | .ok rows => .ok ((infor_wav root dirs files rows).enum.map (fun p => (p.1, [p.2])))

/-- The wav_list loop of split_sets (data_prepare.py lines 143-145):
wav_list.append of data_dict at each key, element 0, in key order; element 0
of an empty value list raises IndexError. -/
def buildWavList : List (Nat × List AudioRecord) → Except PyErr (List AudioRecord)
  | [] => .ok []
  | kv :: rest =>
    match kv.2.head? with
    | none => .error .indexError
    | some r =>
      match buildWavList rest with
      | .ok l => .ok (r :: l)
      | .error e => .error e

/-- The pure flattening that buildWavList computes when every value list of
the dict is nonempty. -/
def heads (d : List (Nat × List AudioRecord)) : List AudioRecord :=
  d.filterMap (fun kv => kv.2.head?)

/-- The three splits returned by split_sets. -/
structure DataSplit where
  train : List AudioRecord
  valid : List AudioRecord
  test : List AudioRecord
deriving DecidableEq, Repr

/-- The slicing loop of split_sets (data_prepare.py lines 150-159) on the
already-shuffled list: tot_split and tot_snts are computed once; for train
and valid, n_snts is int(tot_snts * split_ratio at i / tot_split) — Nat floor
division here, since all quantities are nonnegative — followed by slicing off
a prefix; test receives whatever remains. Evaluation order of Python is kept:
split_ratio at 0 is read before the first division (IndexError on an empty
vector comes before ZeroDivisionError on a zero sum), and split_ratio at 1 is
only read afterwards. There is no validation of the ratio vector. -/
def splitSlices (wav_list : List AudioRecord) (split_ratio : List Nat) :
    Except PyErr DataSplit :=
  match split_ratio[0]? with
  | none => .error .indexError
  | some r0 =>
    if split_ratio.sum = 0 then .error .zeroDivisionError
    else
      match split_ratio[1]? with
      | none => .error .indexError
      | some r1 =>
        let n0 := wav_list.length * r0 / split_ratio.sum
        let n1 := wav_list.length * r1 / split_ratio.sum
        .ok ⟨wav_list.take n0, (wav_list.drop n0).take n1, (wav_list.drop n0).drop n1⟩

/-- split_sets (data_prepare.py lines 119-161): build wav_list from the dict,
shuffle it in place with the module PRNG (the shuffle argument), then slice.
The shuffle is a parameter because random.shuffle lives outside this
repository; the theorems assume only that it permutes its input. -/
def split_sets (shuffle : List AudioRecord → List AudioRecord)
    (data_dict : List (Nat × List AudioRecord)) (split_ratio : List Nat) :
    Except PyErr DataSplit :=
  match buildWavList data_dict with
  | .error e => .error e
  | .ok wl => splitSlices (shuffle wl) split_ratio

/-- The utterance id of create_json (data_prepare.py line 97):
wav_file.split on forward slash, last element, with the final 4 characters
dropped (Python slice [:-4]; on a string of length at most 4 it is empty). -/
def uttid (wav_file : String) : String :=
  let name := (splitCharsP (fun c => c == ('/')) wav_file.data).getLastD []
  ⟨name.take (name.length - 4)⟩

/-- SAMPLERATE constant (data_prepare.py line 9). -/
def SAMPLERATE : Nat := 16000

/-- One manifest entry: the value stored under an utterance id
(data_prepare.py lines 100-104). The duration is exact-rational
sample_count / 16000. -/
structure JsonEntry where
  wav : String
  length : ℚ
  regions : String
deriving DecidableEq, Repr

/-- The entry built for one record: wav path, duration computed from the
decoded sample count divided by the fixed SAMPLERATE (the audio file's own
header rate is never consulted), and the region label. audioLen models the
external read_audio collaborator: only the length of the decoded signal is
used. -/
def mkEntry (audioLen : String → Nat) (r : AudioRecord) : JsonEntry :=
  ⟨r.path, (audioLen r.path : ℚ) / (SAMPLERATE : ℚ), r.regions⟩

/-- Python dict assignment d[k] = v on an insertion-ordered dict modelled as
an association list: if the key is present its value is updated in place
(position kept), otherwise the pair is appended. -/
def dictInsert (d : List (String × JsonEntry)) (k : String) (v : JsonEntry) :
    List (String × JsonEntry) :=
  if k ∈ d.map Prod.fst then d.map (fun p => if p.1 = k then (k, v) else p)
  else d ++ [(k, v)]

/-- create_json (data_prepare.py lines 75-108) up to serialization: fold over
the wav_list in order, inserting each record's entry under its utterance id.
json.dump then writes the dict in this insertion order with indent 2. -/
def create_json (audioLen : String → Nat) (wav_list : List AudioRecord) :
    List (String × JsonEntry) :=
  wav_list.foldl (fun d r => dictInsert d (uttid r.path) (mkEntry audioLen r)) []

/-- First-match lookup in the association-list model of a dict. -/
def lookupKey : List (String × JsonEntry) → String → Option JsonEntry
  | [], _ => none
  | p :: rest, k => if p.1 = k then some p.2 else lookupKey rest k

/-- The three manifests of one pipeline run. -/
structure PipelineOut where
  train : List (String × JsonEntry)
  valid : List (String × JsonEntry)
  test : List (String × JsonEntry)
deriving DecidableEq, Repr

/-- prepare_data (data_prepare.py lines 13-72): random.seed(seed) seeds the
module PRNG, so the shuffle used by split_sets is rng seed where rng models
the PRNG algorithm as a deterministic function of the seed; then
transform_data, split_sets, and one create_json per split. The source
defaults are split_ratio [80, 10, 10] and seed 12. The three output paths
only name the files written and do not influence the computed manifests, so
they are not parameters of the model. -/
def prepare_data (rng : Nat → List AudioRecord → List AudioRecord)
    (audioLen : String → Nat) (root : String) (dirs : List String)
    (files : String → List String) (metaLines : List String)
    (split_ratio : List Nat) (seed : Nat) : Except PyErr PipelineOut :=
  match transform_data root dirs files metaLines with
  | .error e => .error e
  | .ok info_dict =>
    match split_sets (rng seed) info_dict split_ratio with
    | .error e => .error e
    | .ok ds =>
      .ok ⟨create_json audioLen ds.train, create_json audioLen ds.valid,
           create_json audioLen ds.test⟩

/-- The MetaRow a well-formed metadata line parses to: the first three
whitespace tokens, extra tokens ignored. -/
def rowOfLine (l : String) : MetaRow :=
  ⟨((pySplitWs l)[0]?).getD (""), ((pySplitWs l)[1]?).getD (""),
   ((pySplitWs l)[2]?).getD ("")⟩

/- Concrete fixtures used by counterexamples and witnesses. -/

def dSample : List (Nat × List AudioRecord) :=
  [(0, [⟨("data/spk1/a.wav"), ("north"), ("male")⟩]),
   (1, [⟨("data/spk2/b.wav"), ("south"), ("female")⟩])]

def lenSample : String → Nat := fun _ => 32000

def wavSample : List AudioRecord :=
  [⟨("data/spk1/a.wav"), ("north"), ("male")⟩,
   ⟨("data/spk3/c.wav"), ("south"), ("female")⟩]

def wavDup : List AudioRecord :=
  [⟨("data/spk1/a.wav"), ("north"), ("male")⟩,
   ⟨("data/spk1/a.wav"), ("south"), ("female")⟩]

def dirsS : List String := [("spk1")]

def filesS : String → List String := fun s => if s = ("spk1") then [("a.wav")] else []

def rowDup : MetaRow := ⟨("spk1"), ("north"), ("male")⟩

def rowsDup : List MetaRow := [rowDup, rowDup]

/- Helper lemmas about load_in4. -/

lemma exists_three_of_le_length (t : List String) (h : 3 ≤ t.length) :
    ∃ a b c ts, t = a :: b :: c :: ts := by
  rcases t with _ | ⟨a, _ | ⟨b, _ | ⟨c, ts⟩⟩⟩
  · simp at h
  · simp at h
  · simp at h
  · exact ⟨a, b, c, ts, rfl⟩

lemma load_in4_ok (lines : List String)
    (h : ∀ l ∈ lines, 3 ≤ (pySplitWs l).length) :
    load_in4 lines = .ok (lines.map rowOfLine) := by
  induction lines with
  | nil => rfl
  | cons l rest ih =>
    obtain ⟨a, b, c, ts, htok⟩ :=
      exists_three_of_le_length (pySplitWs l) (h l (List.mem_cons_self l rest))
    have ihr := ih (fun x hx => h x (List.mem_cons_of_mem _ hx))
    simp [load_in4, htok, ihr, rowOfLine]

lemma load_in4_err (pre : List String) (l : String) (post : List String)
    (hpre : ∀ x ∈ pre, 3 ≤ (pySplitWs x).length)
    (hl : (pySplitWs l).length < 3) :
    load_in4 (pre ++ l :: post) = .error .indexError := by
  induction pre with
  | nil =>
    have h2 : (pySplitWs l)[2]? = none := by
      rw [List.getElem?_eq_none_iff]; omega
    rcases h0 : (pySplitWs l)[0]? with _ | a <;>
      rcases h1 : (pySplitWs l)[1]? with _ | b <;>
        simp [load_in4, h0, h1, h2]
  | cons x pre ih =>
    obtain ⟨a, b, c, ts, htok⟩ :=
      exists_three_of_le_length (pySplitWs x) (hpre x (List.mem_cons_self x pre))
    have ihr := ih (fun y hy => hpre y (List.mem_cons_of_mem _ hy))
    simp [load_in4, htok, ihr]

/-- C5: every metadata line is trimmed, split on whitespace, and its first
three tokens become (speaker_id, region_label, sex_label), extra tokens
ignored; if every line has at least three tokens the whole table parses in
order, and if any line has fewer than three tokens the load aborts with the
IndexError that the code raises there (the failure the spec names
MalformedRow). -/
theorem claim_C5 (lines : List String) :
    ((∀ l ∈ lines, 3 ≤ (pySplitWs l).length) →
       load_in4 lines = .ok (lines.map rowOfLine)) ∧
    (∀ pre l post, lines = pre ++ l :: post →
       (∀ x ∈ pre, 3 ≤ (pySplitWs x).length) →
       (pySplitWs l).length < 3 →
       load_in4 lines = .error .indexError) := by
  refine ⟨fun h => load_in4_ok lines h, fun pre l post heq hpre hl => ?_⟩
  rw [heq]
  exact load_in4_err pre l post hpre hl

/-- C5 witness: a two-line table parses to its first-three-token rows, and a
table whose second line has only two tokens aborts with the error. -/
theorem claim_C5_witness :
    load_in4 [("spk1 north male"), ("spk2  south female extra")] =
      .ok [⟨("spk1"), ("north"), ("male")⟩, ⟨("spk2"), ("south"), ("female")⟩] ∧
    load_in4 [("spk1 north male"), ("x y")] = .error .indexError := by
  constructor
  · exact ((claim_C5 _).1 (by decide)).trans (by rfl)
  · exact (claim_C5 _).2 [("spk1 north male")] ("x y") [] rfl (by decide) (by decide)

/- Helper lemmas about the matcher. -/

lemma dirMatches_eq_nil (root : String) (dirs : List String)
    (files : String → List String) (r : MetaRow) (h : r.speaker_id ∉ dirs) :
    dirMatches root dirs files r = [] := by
  induction dirs with
  | nil => rfl
  | cons i ds ih =>
    have hi : ¬ (i = r.speaker_id) := fun he => h (he ▸ List.mem_cons_self i ds)
    have hds : r.speaker_id ∉ ds := fun hm => h (List.mem_cons_of_mem _ hm)
    simp only [dirMatches, List.map_cons, List.flatten_cons, if_neg hi,
      List.nil_append]
    exact ih hds

lemma infor_wav_cons (root : String) (dirs : List String)
    (files : String → List String) (r : MetaRow) (rows : List MetaRow) :
    infor_wav root dirs files (r :: rows) =
      dirMatches root dirs files r ++ infor_wav root dirs files rows := by
  simp [infor_wav]

lemma infor_wav_append (root : String) (dirs : List String)
    (files : String → List String) (rows1 rows2 : List MetaRow) :
    infor_wav root dirs files (rows1 ++ rows2) =
      infor_wav root dirs files rows1 ++ infor_wav root dirs files rows2 := by
  simp [infor_wav]

/-- C6: a metadata row whose speaker_id matches no entry of the audio root
listing (exact, case-sensitive string equality) contributes no records and
raises no error: the flat record list is the same as if the row were absent,
so all remaining rows are still processed. (The matcher is a total function
in this model, so no error or diagnostic is possible.) -/
theorem claim_C6 (root : String) (dirs : List String)
    (files : String → List String) (pre : List MetaRow) (r : MetaRow)
    (post : List MetaRow) (h : r.speaker_id ∉ dirs) :
    infor_wav root dirs files (pre ++ r :: post) =
      infor_wav root dirs files (pre ++ post) := by
  rw [infor_wav_append, infor_wav_append, infor_wav_cons,
      dirMatches_eq_nil root dirs files r h]
  simp

/-- C6 witness: with only directory spk1 on disk, an unmatched row spk9
between two spk1 rows contributes nothing. -/
theorem claim_C6_witness :
    (⟨("spk9"), ("south"), ("female")⟩ : MetaRow).speaker_id ∉ dirsS ∧
    infor_wav ("data") dirsS filesS
        [rowDup, ⟨("spk9"), ("south"), ("female")⟩, rowDup] =
      infor_wav ("data") dirsS filesS [rowDup, rowDup] := by
  refine ⟨by decide, ?_⟩
  exact claim_C6 ("data") dirsS filesS [rowDup] ⟨("spk9"), ("south"), ("female")⟩
    [rowDup] (by decide)

/- Helper lemmas about splitCharsP and the utterance id. -/

lemma splitCharsP_ne_nil (p : Char → Bool) (l : List Char) : splitCharsP p l ≠ [] := by
  induction l with
  | nil => simp [splitCharsP]
  | cons x xs ih =>
    cases hpx : p x
    · rcases hr : splitCharsP p xs with _ | ⟨y, ys⟩
      · simp [splitCharsP, hr, hpx]
      · simp [splitCharsP, hr, hpx]
    · simp [splitCharsP, hpx]

lemma two_le_splitCharsP (p : Char → Bool) (l : List Char) (c : Char)
    (hc : c ∈ l) (hpc : p c = true) : 2 ≤ (splitCharsP p l).length := by
  induction l with
  | nil => cases hc
  | cons x xs ih =>
    cases hpx : p x
    · have hxc : c ∈ xs := by
        rcases List.mem_cons.1 hc with h1 | h1
        · rw [h1, hpx] at hpc; cases hpc
        · exact h1
      have h2 := ih hxc
      rcases hr : splitCharsP p xs with _ | ⟨y, ys⟩
      · exact absurd hr (splitCharsP_ne_nil p xs)
      · have hcons : splitCharsP p (x :: xs) = (x :: y) :: ys := by
          simp [splitCharsP, hr, hpx]
        rw [hr] at h2
        rw [hcons]
        simpa using h2
    · have hcons : splitCharsP p (x :: xs) = [] :: splitCharsP p xs := by
        simp [splitCharsP, hpx]
      rw [hcons]
      have hne := splitCharsP_ne_nil p xs
      have hlen : 0 < (splitCharsP p xs).length := List.length_pos.2 hne
      simp only [List.length_cons]
      omega

lemma getLastD_splitCharsP_append (p : Char → Bool) (c : Char) (hpc : p c = true)
    (ys : List Char) :
    ∀ xs : List Char,
      (splitCharsP p (xs ++ c :: ys)).getLastD [] = (splitCharsP p ys).getLastD [] := by
  intro xs
  induction xs with
  | nil =>
    have hcons : splitCharsP p (c :: ys) = [] :: splitCharsP p ys := by
      simp [splitCharsP, hpc]
    rw [List.nil_append, hcons, List.getLastD_cons]
  | cons x xs ih =>
    cases hpx : p x
    · rcases hr : splitCharsP p (xs ++ c :: ys) with _ | ⟨y, ys2⟩
      · exact absurd hr (splitCharsP_ne_nil _ _)
      · have hcons : splitCharsP p (x :: (xs ++ c :: ys)) = (x :: y) :: ys2 := by
          simp [splitCharsP, hr, hpx]
        have h2 : 2 ≤ (splitCharsP p (xs ++ c :: ys)).length :=
          two_le_splitCharsP p _ c (by simp) hpc
        rw [hr] at h2
        have hys2 : ys2 ≠ [] := by
          intro he
          rw [he] at h2
          simp at h2
        rw [List.cons_append, hcons, List.getLastD_cons]
        rw [hr, List.getLastD_cons] at ih
        rw [← ih]
        rcases hz : ys2.getLast? with _ | z
        · exact absurd (List.getLast?_eq_none_iff.1 hz) hys2
        · simp [List.getLastD_eq_getLast?, hz]
    · have hcons :
          splitCharsP p (x :: (xs ++ c :: ys)) = [] :: splitCharsP p (xs ++ c :: ys) := by
        simp [splitCharsP, hpx]
      rw [List.cons_append, hcons, List.getLastD_cons]
      exact ih

lemma splitCharsP_of_forall (p : Char → Bool) (l : List Char)
    (h : ∀ c ∈ l, p c = false) : splitCharsP p l = [l] := by
  induction l with
  | nil => rfl
  | cons x xs ih =>
    have hpx : p x = false := h x (List.mem_cons_self x xs)
    have hxs := ih (fun c hc => h c (List.mem_cons_of_mem _ hc))
    simp [splitCharsP, hxs, hpx]

lemma uttid_eq_strip_last (dir name : List Char) (h : ('/') ∉ name) :
    uttid ⟨dir ++ ('/') :: name⟩ = ⟨name.take (name.length - 4)⟩ := by
  have hmem : ∀ c ∈ name, (c == ('/')) = false := by
    intro c hc
    exact beq_eq_false_iff_ne.2 (fun he => h (he ▸ hc))
  have h1 := getLastD_splitCharsP_append (fun c => c == ('/')) ('/') (by simp) name dir
  have h2 := splitCharsP_of_forall (fun c => c == ('/')) name hmem
  simp only [uttid]
  rw [h1, h2]
  rfl

/-- C7 counterexample: the claim asserts that a filename with extension
".ogg" yields a truncated or incorrect utterance id, but ".ogg" is exactly
4 characters (dot included), so the fixed 4-character strip produces
precisely the stem: for "spk1/clip001.ogg" the id is the full, correct stem
"clip001". -/
theorem claim_C7_cx : uttid ("spk1/clip001.ogg") = ("clip001") := rfl

/-- C7 amended: the utterance id is the substring after the last forward
slash with its final 4 characters removed (a fixed-offset strip, not
extension-aware): ".../clip01.wav" gives "clip01", and any dot-plus-suffix
of exactly 4 characters, including ".ogg", strips correctly; it is the
filenames whose dot-plus-extension suffix has a length other than 4 that
yield truncated or incorrect ids, e.g. "clip01.flac" gives "clip01." and
"b.fl" gives the empty id. -/
theorem claim_C7_amended :
    (∀ dir name : List Char, ('/') ∉ name →
       uttid ⟨dir ++ ('/') :: name⟩ = ⟨name.take (name.length - 4)⟩) ∧
    uttid ("dir/sub/clip01.wav") = ("clip01") ∧
    uttid ("a/clip02.ogg") = ("clip02") ∧
    uttid ("a/clip01.flac") = ("clip01.") ∧
    uttid ("a/b.fl") = ("") :=
  ⟨fun dir name h => uttid_eq_strip_last dir name h, rfl, rfl, rfl, rfl⟩

example : uttid ("d/a.z") = ("") := rfl
example :
    splitSlices [⟨("a"), ("r"), ("m")⟩, ⟨("b"), ("r"), ("f")⟩] [5, 5] =
      .ok ⟨[⟨("a"), ("r"), ("m")⟩], [⟨("b"), ("r"), ("f")⟩], []⟩ := rfl

/- Helper lemmas about the splitter. -/

lemma buildWavList_ok (d : List (Nat × List AudioRecord))
    (hv : ∀ kv ∈ d, kv.2 ≠ []) : buildWavList d = .ok (heads d) := by
  induction d with
  | nil => rfl
  | cons kv rest ih =>
    have h1 : kv.2 ≠ [] := hv kv (List.mem_cons_self kv rest)
    rcases hkv : kv.2 with _ | ⟨a, t⟩
    · exact absurd hkv h1
    · have hrest := ih (fun x hx => hv x (List.mem_cons_of_mem _ hx))
      simp [buildWavList, heads, hkv, hrest, List.filterMap_cons]

lemma splitSlices_nil (L : List AudioRecord) :
    splitSlices L [] = .error .indexError := rfl

lemma splitSlices_single (L : List AudioRecord) (a : Nat) :
    splitSlices L [a] =
      if a = 0 then .error .zeroDivisionError else .error .indexError := by
  by_cases ha : a = 0
  · simp [splitSlices, ha]
  · simp [splitSlices, ha]

lemma splitSlices_cons2 (L : List AudioRecord) (a b : Nat) (t : List Nat)
    (h : 0 < (a :: b :: t).sum) :
    splitSlices L (a :: b :: t) =
      .ok ⟨L.take (L.length * a / (a :: b :: t).sum),
           (L.drop (L.length * a / (a :: b :: t).sum)).take
             (L.length * b / (a :: b :: t).sum),
           (L.drop (L.length * a / (a :: b :: t).sum)).drop
             (L.length * b / (a :: b :: t).sum)⟩ := by
  have hne : ¬ ((a :: b :: t).sum = 0) := by omega
  simp only [splitSlices, List.getElem?_cons_zero, List.getElem?_cons_succ]
  rw [if_neg hne]

lemma splitSlices_cons2_zero (L : List AudioRecord) (a b : Nat) (t : List Nat)
    (h : (a :: b :: t).sum = 0) :
    splitSlices L (a :: b :: t) = .error .zeroDivisionError := by
  simp only [splitSlices, List.getElem?_cons_zero, List.getElem?_cons_succ]
  rw [if_pos h]

lemma sum_three (r0 r1 r2 : Nat) : ([r0, r1, r2] : List Nat).sum = r0 + r1 + r2 := by
  simp only [List.sum_cons, List.sum_nil]
  omega

lemma split_sets_three (shuffle : List AudioRecord → List AudioRecord)
    (d : List (Nat × List AudioRecord)) (r0 r1 r2 : Nat)
    (hv : ∀ kv ∈ d, kv.2 ≠ []) (hr : 0 < r0 + r1 + r2) :
    split_sets shuffle d [r0, r1, r2] =
      .ok ⟨(shuffle (heads d)).take
             ((shuffle (heads d)).length * r0 / (r0 + r1 + r2)),
           ((shuffle (heads d)).drop
             ((shuffle (heads d)).length * r0 / (r0 + r1 + r2))).take
             ((shuffle (heads d)).length * r1 / (r0 + r1 + r2)),
           ((shuffle (heads d)).drop
             ((shuffle (heads d)).length * r0 / (r0 + r1 + r2))).drop
             ((shuffle (heads d)).length * r1 / (r0 + r1 + r2))⟩ := by
  have hb := buildWavList_ok d hv
  have hsum := sum_three r0 r1 r2
  have hpos : 0 < ([r0, r1, r2] : List Nat).sum := by rw [hsum]; exact hr
  simp only [split_sets, hb]
  rw [splitSlices_cons2 (shuffle (heads d)) r0 r1 [r2] hpos, hsum]

/-- C1: for every record mapping with nonempty value lists, every
permutation-shuffle, and every 3-entry positive-summing ratio vector, the
splitter succeeds and its three splits concatenate to a permutation of the
flattened record list: every record occurs in the splits with exactly its
input multiplicity (no duplication, no loss), and when the input records are
distinct the three splits are pairwise disjoint. -/
theorem claim_C1 (shuffle : List AudioRecord → List AudioRecord)
    (d : List (Nat × List AudioRecord)) (r0 r1 r2 : Nat)
    (hv : ∀ kv ∈ d, kv.2 ≠ [])
    (hs : (shuffle (heads d)).Perm (heads d))
    (hr : 0 < r0 + r1 + r2) :
    ∃ ds : DataSplit, split_sets shuffle d [r0, r1, r2] = .ok ds ∧
      (ds.train ++ ds.valid ++ ds.test).Perm (heads d) ∧
      (∀ x, ds.train.count x + ds.valid.count x + ds.test.count x =
        (heads d).count x) ∧
      ((heads d).Nodup →
        ds.train.Disjoint ds.valid ∧ ds.train.Disjoint ds.test ∧
          ds.valid.Disjoint ds.test) := by
  have hsplit := split_sets_three shuffle d r0 r1 r2 hv hr
  set L := shuffle (heads d) with hL
  set n0 := L.length * r0 / (r0 + r1 + r2) with hn0
  set n1 := L.length * r1 / (r0 + r1 + r2) with hn1
  have hcat : (L.take n0 ++ (L.drop n0).take n1) ++ (L.drop n0).drop n1 = L := by
    rw [List.append_assoc, List.take_append_drop, List.take_append_drop]
  refine ⟨⟨L.take n0, (L.drop n0).take n1, (L.drop n0).drop n1⟩, hsplit, ?_, ?_, ?_⟩
  · dsimp only
    rw [hcat]
    exact hs
  · intro x
    have h2 := hs.count_eq x
    rw [← hcat] at h2
    simp only [List.count_append] at h2
    dsimp only
    omega
  · intro hnd
    have hndL : L.Nodup := hs.symm.nodup hnd
    have hndcat :
        (L.take n0 ++ ((L.drop n0).take n1 ++ (L.drop n0).drop n1)).Nodup := by
      rw [← List.append_assoc, hcat]; exact hndL
    rw [List.nodup_append] at hndcat
    obtain ⟨hnt, hvt, hdisj⟩ := hndcat
    rw [List.nodup_append] at hvt
    rw [List.disjoint_append_right] at hdisj
    exact ⟨hdisj.1, hdisj.2, hvt.2.2⟩

/-- C1 witness: the reversing shuffle on the two-record sample dict with
ratio [80, 10, 10] succeeds. -/
theorem claim_C1_witness :
    (∀ kv ∈ dSample, kv.2 ≠ []) ∧
    ∃ ds, split_sets List.reverse dSample [80, 10, 10] = .ok ds :=
  ⟨by decide,
   (claim_C1 List.reverse dSample 80 10 10 (by decide) (List.reverse_perm _)
     (by decide)).imp (fun ds h => h.1)⟩

/-- C2: the split sizes follow the floor formula: train gets
floor(N * r_train / sum), valid gets floor(N * r_valid / sum), and test gets
the remaining N - train - valid records; when the train and valid ratios are
both zero (e.g. ratio [0, 0, 10]) train and valid are empty and test carries
the whole input set. -/
theorem claim_C2 (shuffle : List AudioRecord → List AudioRecord)
    (d : List (Nat × List AudioRecord)) (r0 r1 r2 : Nat)
    (hv : ∀ kv ∈ d, kv.2 ≠ [])
    (hs : (shuffle (heads d)).Perm (heads d))
    (hr : 0 < r0 + r1 + r2) :
    ∃ ds : DataSplit, split_sets shuffle d [r0, r1, r2] = .ok ds ∧
      ds.train.length = (heads d).length * r0 / (r0 + r1 + r2) ∧
      ds.valid.length = (heads d).length * r1 / (r0 + r1 + r2) ∧
      ds.test.length = (heads d).length - ds.train.length - ds.valid.length ∧
      (r0 = 0 → r1 = 0 →
        ds.train = [] ∧ ds.valid = [] ∧ ds.test.Perm (heads d)) := by
  have hsplit := split_sets_three shuffle d r0 r1 r2 hv hr
  set L := shuffle (heads d) with hL
  have hlen : L.length = (heads d).length := hs.length_eq
  set N := (heads d).length with hN
  set s := r0 + r1 + r2 with hs3
  set n0 := N * r0 / s with hn0
  set n1 := N * r1 / s with hn1
  have hLn0 : L.length * r0 / s = n0 := by rw [hlen]
  have hLn1 : L.length * r1 / s = n1 := by rw [hlen]
  have hn0N : n0 ≤ N := by
    have h1 : N * r0 ≤ N * s := Nat.mul_le_mul_left N (by omega)
    have h2 : N * r0 / s ≤ N * s / s := Nat.div_le_div_right h1
    rw [Nat.mul_div_cancel N hr] at h2
    exact h2
  have hadd : n0 + n1 ≤ N := by
    have k0 : (N * r0 / s) * s ≤ N * r0 := Nat.div_mul_le_self _ _
    have k1 : (N * r1 / s) * s ≤ N * r1 := Nat.div_mul_le_self _ _
    have hle : (n0 + n1) * s ≤ N * s := by
      calc (n0 + n1) * s = (N * r0 / s) * s + (N * r1 / s) * s := by
            rw [hn0, hn1, Nat.add_mul]
        _ ≤ N * r0 + N * r1 := Nat.add_le_add k0 k1
        _ = N * (r0 + r1) := (Nat.mul_add N r0 r1).symm
        _ ≤ N * s := Nat.mul_le_mul_left N (by omega)
    exact Nat.le_of_mul_le_mul_right hle hr
  refine ⟨⟨L.take (L.length * r0 / s), (L.drop (L.length * r0 / s)).take
      (L.length * r1 / s), (L.drop (L.length * r0 / s)).drop
      (L.length * r1 / s)⟩, hsplit, ?_, ?_, ?_, ?_⟩
  · dsimp only
    rw [hLn0, List.length_take, hlen]
    omega
  · dsimp only
    rw [hLn0, hLn1, List.length_take, List.length_drop, hlen]
    omega
  · dsimp only
    simp only [hLn0, hLn1, List.length_take, List.length_drop, hlen]
    omega
  · intro ha hb
    dsimp only
    simp only [ha, hb, Nat.mul_zero, Nat.zero_div, List.take_zero,
      List.drop_zero]
    exact ⟨trivial, trivial, hs⟩

/-- C2 witness: the identity shuffle on the sample dict with ratio
[0, 0, 10] succeeds. -/
theorem claim_C2_witness :
    (0 : Nat) < 0 + 0 + 10 ∧
    ∃ ds, split_sets (fun l => l) dSample [0, 0, 10] = .ok ds :=
  ⟨by decide,
   (claim_C2 (fun l => l) dSample 0 0 10 (by decide) (List.Perm.refl _)
     (by decide)).imp (fun ds h => h.1)⟩

/-- C4 counterexample: the splitter performs no ratio validation at all. A
2-entry ratio vector [5, 5] — not a 3-entry vector — with positive sum is
accepted and the splitter returns a normal result instead of failing with
any InvalidRatio error. -/
theorem claim_C4_cx :
    split_sets (fun l => l) dSample [5, 5] =
      .ok ⟨[⟨("data/spk1/a.wav"), ("north"), ("male")⟩],
           [⟨("data/spk2/b.wav"), ("south"), ("female")⟩], []⟩ := rfl

/-- C4 amended: split_sets never raises any InvalidRatio error and performs
no validation before shuffling. A ratio vector with at least 2 entries and
positive sum is accepted whatever its length (entries beyond the second only
enlarge the denominator sum); a nonempty vector with zero sum fails with
Python's ZeroDivisionError; an empty vector, or a single-entry vector with
positive sum, fails with an IndexError; each of these failures happens in
the slicing loop, which runs only after the shuffle. -/
theorem claim_C4_amended (shuffle : List AudioRecord → List AudioRecord)
    (d : List (Nat × List AudioRecord)) (split_ratio : List Nat)
    (hv : ∀ kv ∈ d, kv.2 ≠ []) :
    (2 ≤ split_ratio.length → 0 < split_ratio.sum →
       ∃ ds, split_sets shuffle d split_ratio = .ok ds) ∧
    (split_ratio ≠ [] → split_ratio.sum = 0 →
       split_sets shuffle d split_ratio = .error .zeroDivisionError) ∧
    (split_ratio = [] →
       split_sets shuffle d split_ratio = .error .indexError) ∧
    (split_ratio.length = 1 → 0 < split_ratio.sum →
       split_sets shuffle d split_ratio = .error .indexError) := by
  have hb := buildWavList_ok d hv
  have hw : split_sets shuffle d split_ratio =
      splitSlices (shuffle (heads d)) split_ratio := by
    simp only [split_sets, hb]
  rcases split_ratio with _ | ⟨a, _ | ⟨b, t⟩⟩
  · refine ⟨fun h2 _ => ?_, fun hne _ => absurd rfl hne, fun _ => ?_,
      fun h1 _ => ?_⟩
    · simp at h2
    · rw [hw]; rfl
    · simp at h1
  · refine ⟨fun h2 _ => ?_, fun _ hsum => ?_, fun he => ?_, fun _ hpos => ?_⟩
    · simp at h2
    · have ha : a = 0 := by simpa using hsum
      rw [hw, splitSlices_single, if_pos ha]
    · simp at he
    · have ha : ¬ (a = 0) := by
        simp only [List.sum_cons, List.sum_nil] at hpos
        omega
      rw [hw, splitSlices_single, if_neg ha]
  · refine ⟨fun _ hpos => ?_, fun _ hsum => ?_, fun he => ?_, fun h1 _ => ?_⟩
    · exact ⟨_, by rw [hw, splitSlices_cons2 _ a b t hpos]⟩
    · rw [hw, splitSlices_cons2_zero _ a b t hsum]
    · simp at he
    · simp at h1

/-- C4 witness: a 4-entry positive vector succeeds, a zero-sum vector and
too-short vectors fail with the division and indexing errors. -/
theorem claim_C4_witness :
    (∀ kv ∈ dSample, kv.2 ≠ []) ∧
    (∃ ds, split_sets (fun l => l) dSample [1, 2, 3, 4] = .ok ds) ∧
    split_sets (fun l => l) dSample [0, 0] = .error .zeroDivisionError ∧
    split_sets (fun l => l) dSample [] = .error .indexError ∧
    split_sets (fun l => l) dSample [7] = .error .indexError := by
  refine ⟨by decide, ?_, ?_, ?_, ?_⟩
  · exact (claim_C4_amended (fun l => l) dSample [1, 2, 3, 4] (by decide)).1
      (by decide) (by decide)
  · exact (claim_C4_amended (fun l => l) dSample [0, 0] (by decide)).2.1
      (by decide) (by decide)
  · exact (claim_C4_amended (fun l => l) dSample [] (by decide)).2.2.1 rfl
  · exact (claim_C4_amended (fun l => l) dSample [7] (by decide)).2.2.2
      (by decide) (by decide)

/-- C3: the pipeline is deterministic in the seed: the only stateful input is
the module PRNG, which prepare_data seeds with the caller-supplied seed
(source default 12), so any two runs whose PRNG behaves the same at that
seed — in particular two runs of the very same program — produce identical
manifests for a fixed input mapping, iteration order and ratio. -/
theorem claim_C3 (rng1 rng2 : Nat → List AudioRecord → List AudioRecord)
    (audioLen : String → Nat) (root : String) (dirs : List String)
    (files : String → List String) (metaLines : List String)
    (split_ratio : List Nat) (seed : Nat)
    (h : rng1 seed = rng2 seed) :
    prepare_data rng1 audioLen root dirs files metaLines split_ratio seed =
      prepare_data rng2 audioLen root dirs files metaLines split_ratio seed := by
  simp only [prepare_data, h]

/-- C3 witness: two syntactically different PRNG models that agree at seed 12
give identical pipeline output on a one-speaker corpus. -/
theorem claim_C3_witness :
    prepare_data (fun s l => if s = 12 then l.reverse else l) lenSample ("data")
        dirsS filesS [("spk1 north male")] [80, 10, 10] 12 =
      prepare_data (fun _ l => l.reverse) lenSample ("data") dirsS filesS
        [("spk1 north male")] [80, 10, 10] 12 :=
  claim_C3 (fun s l => if s = 12 then l.reverse else l) (fun _ l => l.reverse)
    lenSample ("data") dirsS filesS [("spk1 north male")] [80, 10, 10] 12
    (by funext l; simp)

/- Helper lemmas about the manifest dict. -/

lemma keys_dictInsert (d : List (String × JsonEntry)) (k : String) (v : JsonEntry) :
    (dictInsert d k v).map Prod.fst =
      if k ∈ d.map Prod.fst then d.map Prod.fst else d.map Prod.fst ++ [k] := by
  unfold dictInsert
  by_cases hmem : k ∈ d.map Prod.fst
  · rw [if_pos hmem, if_pos hmem, List.map_map]
    refine List.map_congr_left (fun p hp => ?_)
    by_cases hpk : p.1 = k
    · simp [hpk]
    · simp [hpk]
  · rw [if_neg hmem, if_neg hmem, List.map_append]
    rfl

lemma lookupKey_map_update (d : List (String × JsonEntry)) (k x : String)
    (v : JsonEntry) :
    lookupKey (d.map (fun p => if p.1 = k then (k, v) else p)) x =
      if x = k ∧ k ∈ d.map Prod.fst then some v else lookupKey d x := by
  induction d with
  | nil => simp [lookupKey]
  | cons p rest ih =>
    simp only [List.map_cons, lookupKey]
    by_cases hpk : p.1 = k
    · by_cases hxk : x = k
      · simp [lookupKey, hpk, hxk]
      · have hkx : ¬ (k = x) := fun he => hxk he.symm
        simp [lookupKey, hpk, hxk, hkx, ih]
    · have hkp : ¬ (k = p.1) := fun he => hpk he.symm
      by_cases hpx : p.1 = x
      · have hxk : ¬ (x = k) := fun he => hpk (hpx.trans he)
        simp [lookupKey, hpk, hpx, hxk]
      · simp only [lookupKey, if_neg hpk, if_neg hpx, ih]
        have hiff : (x = k ∧ k ∈ rest.map Prod.fst) ↔
            (x = k ∧ k ∈ p.1 :: rest.map Prod.fst) := by
          simp [List.mem_cons, hkp]
        exact if_congr hiff rfl rfl

lemma lookupKey_append_single (d : List (String × JsonEntry)) (k : String)
    (v : JsonEntry) (x : String) (hmem : k ∉ d.map Prod.fst) :
    lookupKey (d ++ [(k, v)]) x = if x = k then some v else lookupKey d x := by
  induction d with
  | nil =>
    rw [List.nil_append]
    by_cases hx : x = k
    · subst hx
      simp [lookupKey]
    · have hkx : ¬ (k = x) := fun he => hx he.symm
      simp [lookupKey, hkx, hx]
  | cons p rest ih =>
    have hp : ¬ (p.1 = k) := fun he => hmem (List.mem_cons.2 (Or.inl he.symm))
    have hrest : k ∉ rest.map Prod.fst :=
      fun hm => hmem (List.mem_cons.2 (Or.inr hm))
    show lookupKey (p :: (rest ++ [(k, v)])) x = _
    simp only [lookupKey]
    rw [ih hrest]
    by_cases hpx : p.1 = x
    · have hxk : ¬ (x = k) := fun he => hp (hpx.trans he)
      simp [hpx, hxk]
    · simp [hpx]

lemma lookupKey_dictInsert (d : List (String × JsonEntry)) (k : String)
    (v : JsonEntry) (x : String) :
    lookupKey (dictInsert d k v) x = if x = k then some v else lookupKey d x := by
  unfold dictInsert
  by_cases hmem : k ∈ d.map Prod.fst
  · rw [if_pos hmem, lookupKey_map_update]
    by_cases hx : x = k
    · rw [if_pos ⟨hx, hmem⟩, if_pos hx]
    · rw [if_neg (fun hc => hx hc.1), if_neg hx]
  · rw [if_neg hmem]
    exact lookupKey_append_single d k v x hmem

lemma getLast?_cons_ne {α : Type} (a : α) (l : List α) (h : l ≠ []) :
    (a :: l).getLast? = l.getLast? := by
  rcases l with _ | ⟨b, t⟩
  · exact absurd rfl h
  · rfl

lemma create_json_loop_nodup (audioLen : String → Nat) :
    ∀ (l : List AudioRecord) (d : List (String × JsonEntry)),
      (d.map Prod.fst ++ l.map (fun r => uttid r.path)).Nodup →
      l.foldl (fun d r => dictInsert d (uttid r.path) (mkEntry audioLen r)) d =
        d ++ l.map (fun r => (uttid r.path, mkEntry audioLen r)) := by
  intro l
  induction l with
  | nil =>
    intro d h
    simp
  | cons r l ih =>
    intro d h
    have hk : uttid r.path ∉ d.map Prod.fst := by
      rw [List.map_cons, List.nodup_append] at h
      exact fun hmem => h.2.2 hmem (List.mem_cons_self _ _)
    rw [List.foldl_cons,
        show dictInsert d (uttid r.path) (mkEntry audioLen r) =
          d ++ [(uttid r.path, mkEntry audioLen r)] from by
            unfold dictInsert; rw [if_neg hk]]
    rw [ih]
    · simp
    · have he : ((d ++ [(uttid r.path, mkEntry audioLen r)]).map Prod.fst ++
          l.map (fun r => uttid r.path)) =
            d.map Prod.fst ++ (uttid r.path :: l.map (fun r => uttid r.path)) := by
        simp
      rw [he]
      simpa using h

lemma create_json_loop_keys_mem (audioLen : String → Nat) :
    ∀ (l : List AudioRecord) (d : List (String × JsonEntry)) (x : String),
      (x ∈ (l.foldl (fun d r =>
          dictInsert d (uttid r.path) (mkEntry audioLen r)) d).map Prod.fst) ↔
        x ∈ d.map Prod.fst ∨ x ∈ l.map (fun r => uttid r.path) := by
  intro l
  induction l with
  | nil =>
    intro d x
    simp
  | cons r l ih =>
    intro d x
    rw [List.foldl_cons, ih]
    have hk := keys_dictInsert d (uttid r.path) (mkEntry audioLen r)
    by_cases hmem : uttid r.path ∈ d.map Prod.fst
    · rw [if_pos hmem] at hk
      rw [hk, List.map_cons, List.mem_cons]
      constructor
      · rintro (h1 | h2)
        · exact Or.inl h1
        · exact Or.inr (Or.inr h2)
      · rintro (h1 | h2 | h3)
        · exact Or.inl h1
        · exact Or.inl (h2 ▸ hmem)
        · exact Or.inr h3
    · rw [if_neg hmem] at hk
      rw [hk, List.map_cons, List.mem_cons, List.mem_append,
        List.mem_singleton]
      constructor
      · rintro ((h1 | h2) | h3)
        · exact Or.inl h1
        · exact Or.inr (Or.inl h2)
        · exact Or.inr (Or.inr h3)
      · rintro (h1 | h2 | h3)
        · exact Or.inl (Or.inl h1)
        · exact Or.inl (Or.inr h2)
        · exact Or.inr h3

lemma create_json_loop_keys_nodup (audioLen : String → Nat) :
    ∀ (l : List AudioRecord) (d : List (String × JsonEntry)),
      (d.map Prod.fst).Nodup →
      ((l.foldl (fun d r =>
          dictInsert d (uttid r.path) (mkEntry audioLen r)) d).map Prod.fst).Nodup := by
  intro l
  induction l with
  | nil =>
    intro d hd
    exact hd
  | cons r l ih =>
    intro d hd
    rw [List.foldl_cons]
    apply ih
    have hk := keys_dictInsert d (uttid r.path) (mkEntry audioLen r)
    by_cases hmem : uttid r.path ∈ d.map Prod.fst
    · rw [if_pos hmem] at hk
      rw [hk]
      exact hd
    · rw [if_neg hmem] at hk
      rw [hk, List.nodup_append]
      refine ⟨hd, List.nodup_singleton _, fun a ha hb => ?_⟩
      rw [List.mem_singleton] at hb
      exact hmem (hb ▸ ha)

lemma create_json_loop_lookup (audioLen : String → Nat) :
    ∀ (l : List AudioRecord) (d : List (String × JsonEntry)) (x : String),
      lookupKey (l.foldl (fun d r =>
          dictInsert d (uttid r.path) (mkEntry audioLen r)) d) x =
        ((l.filter (fun r => uttid r.path = x)).getLast?).elim (lookupKey d x)
          (fun r => some (mkEntry audioLen r)) := by
  intro l
  induction l with
  | nil =>
    intro d x
    simp
  | cons r l ih =>
    intro d x
    rw [List.foldl_cons, ih]
    by_cases hpr : uttid r.path = x
    · rw [List.filter_cons_of_pos (by simpa using hpr)]
      cases hfl : (l.filter (fun r => uttid r.path = x)).getLast? with
      | none =>
        have hnil : l.filter (fun r => uttid r.path = x) = [] :=
          List.getLast?_eq_none_iff.1 hfl
        rw [hnil]
        simp only [Option.elim, List.getLast?_singleton]
        rw [lookupKey_dictInsert, if_pos hpr.symm]
      | some r2 =>
        have hne : l.filter (fun r => uttid r.path = x) ≠ [] := by
          intro he
          rw [he] at hfl
          cases hfl
        rw [getLast?_cons_ne _ _ hne, hfl]
        simp only [Option.elim]
    · rw [List.filter_cons_of_neg (by simpa using hpr)]
      cases hfl : (l.filter (fun r => uttid r.path = x)).getLast? with
      | none =>
        simp only [Option.elim]
        rw [lookupKey_dictInsert, if_neg (fun he => hpr he.symm)]
      | some r2 =>
        simp only [Option.elim]

/-- C8: for a split whose records derive pairwise distinct utterance ids, the
manifest is exactly the input-ordered association list mapping each record's
utterance id to the entry whose fields are the record's wav path, the
duration sample_count / 16000 computed from the decoded length under the
fixed SAMPLERATE (no header rate is consulted), and the record's region
label: keys appear in insertion order, which is the split's sequence order. -/
theorem claim_C8 (audioLen : String → Nat) (wav_list : List AudioRecord)
    (h : (wav_list.map (fun r => uttid r.path)).Nodup) :
    create_json audioLen wav_list =
      wav_list.map (fun r =>
        (uttid r.path,
         (⟨r.path, (audioLen r.path : ℚ) / (SAMPLERATE : ℚ), r.regions⟩ :
           JsonEntry))) := by
  unfold create_json
  rw [create_json_loop_nodup audioLen wav_list [] (by simpa using h)]
  simp only [List.nil_append]
  rfl

/-- C8 witness: two records with distinct ids produce the two expected
entries in input order. -/
theorem claim_C8_witness :
    (wavSample.map (fun r => uttid r.path)).Nodup ∧
    create_json lenSample wavSample =
      wavSample.map (fun r =>
        (uttid r.path,
         (⟨r.path, (lenSample r.path : ℚ) / (SAMPLERATE : ℚ), r.regions⟩ :
           JsonEntry))) :=
  ⟨by decide, claim_C8 lenSample wavSample (by decide)⟩

/-- C9: create_json is total (it cannot fail on id collisions); its keys are
pairwise distinct, a key is present exactly when some record of the split
derives it, and the entry stored under a key is that of the last record in
input order deriving that id — later records silently overwrite earlier ones
(last-write-wins). -/
theorem claim_C9 (audioLen : String → Nat) (wav_list : List AudioRecord) :
    ((create_json audioLen wav_list).map Prod.fst).Nodup ∧
    (∀ x, x ∈ (create_json audioLen wav_list).map Prod.fst ↔
       x ∈ wav_list.map (fun r => uttid r.path)) ∧
    (∀ x, lookupKey (create_json audioLen wav_list) x =
       ((wav_list.filter (fun r => uttid r.path = x)).getLast?).elim none
         (fun r => some (mkEntry audioLen r))) := by
  refine ⟨?_, ?_, ?_⟩
  · unfold create_json
    exact create_json_loop_keys_nodup audioLen wav_list [] (by simp)
  · intro x
    unfold create_json
    rw [create_json_loop_keys_mem]
    simp
  · intro x
    unfold create_json
    rw [create_json_loop_lookup]
    rfl

/- Helper lemmas for the duplicate-row multiplicity property. -/

lemma count_flatten_if (x : AudioRecord) (sid : String) (L : List AudioRecord) :
    ∀ dirs : List String,
      ((dirs.map (fun i => if i = sid then L else [])).flatten).count x =
        dirs.count sid * L.count x := by
  intro dirs
  induction dirs with
  | nil => simp
  | cons i ds ih =>
    simp only [List.map_cons, List.flatten_cons, List.count_append, ih]
    by_cases hi : i = sid
    · have hc : List.count sid (i :: ds) = List.count sid ds + 1 := by
        simp [List.count_cons, hi]
      rw [if_pos hi, hc]
      ring
    · have hc : List.count sid (i :: ds) = List.count sid ds := by
        simp [List.count_cons, hi]
      rw [if_neg hi, hc]
      simp

lemma count_map_mkRec (root : String) (tr : MetaRow) (f : String)
    (l : List String)
    (h : ∀ w ∈ l, mkRec root tr w = mkRec root tr f → w = f) :
    (l.map (mkRec root tr)).count (mkRec root tr f) = l.count f := by
  induction l with
  | nil => rfl
  | cons w l ih =>
    simp only [List.map_cons, List.count_cons]
    rw [ih (fun w2 hw2 => h w2 (List.mem_cons_of_mem _ hw2))]
    by_cases hw : w = f
    · simp [hw]
    · have hm : ¬ (mkRec root tr w = mkRec root tr f) :=
        fun he => hw (h w (List.mem_cons_self w l) he)
      simp [hw, hm]

/-- C10: the matcher performs no deduplication: a row value that occurs k
times in the metadata and whose speaker directory occurs once in the root
listing contributes its records k times over — the multiplicity of a given
record in the flat list is k times the multiplicity of its file in that
speaker's directory listing, each occurrence carrying the row's own labels
(rows with other labels or speakers produce different records, under the
path-injectivity hypothesis), so the same audio path can occur repeatedly
within and across splits. -/
theorem claim_C10 (root : String) (dirs : List String)
    (files : String → List String) (rows : List MetaRow) (tr : MetaRow)
    (f : String) (h1 : dirs.count tr.speaker_id = 1)
    (hinj : ∀ r2 ∈ rows, ∀ f2 ∈ files r2.speaker_id,
       mkRec root r2 f2 = mkRec root tr f → r2 = tr ∧ f2 = f) :
    (infor_wav root dirs files rows).count (mkRec root tr f) =
      rows.count tr * (files tr.speaker_id).count f := by
  induction rows with
  | nil => simp [infor_wav]
  | cons r rows ih =>
    have ihr := ih (fun r2 h2 f2 hf2 he =>
      hinj r2 (List.mem_cons_of_mem _ h2) f2 hf2 he)
    rw [infor_wav_cons, List.count_append, ihr]
    by_cases hr : r = tr
    · subst hr
      have hmap : (dirMatches root dirs files r).count (mkRec root r f) =
          (files r.speaker_id).count f := by
        simp only [dirMatches]
        rw [count_flatten_if (mkRec root r f) r.speaker_id
          ((files r.speaker_id).map (mkRec root r)) dirs, h1]
        rw [count_map_mkRec root r f (files r.speaker_id)
          (fun w hw he => (hinj r (List.mem_cons_self r rows) w hw he).2)]
        ring
      have hc : List.count r (r :: rows) = List.count r rows + 1 := by
        simp [List.count_cons]
      rw [hmap, hc]
      ring
    · have hzero : (dirMatches root dirs files r).count (mkRec root tr f) = 0 := by
        rw [List.count_eq_zero]
        intro hmem
        simp only [dirMatches, List.mem_flatten, List.mem_map] at hmem
        obtain ⟨sub, ⟨i, hi, hsub⟩, hmem2⟩ := hmem
        rw [← hsub] at hmem2
        by_cases hisid : i = r.speaker_id
        · rw [if_pos hisid] at hmem2
          obtain ⟨f2, hf2, heq⟩ := List.mem_map.1 hmem2
          exact hr (hinj r (List.mem_cons_self r rows) f2 hf2 heq).1
        · rw [if_neg hisid] at hmem2
          cases hmem2
      have hc : List.count tr (r :: rows) = List.count tr rows := by
        simp [List.count_cons, hr]
      rw [hzero, hc]
      simp

/-- C10 witness: a metadata table listing the same (spk1, north, male) row
twice and a single spk1 directory holding one file yields that record with
multiplicity 2 = 2 rows x 1 file. -/
theorem claim_C10_witness :
    dirsS.count rowDup.speaker_id = 1 ∧
    (infor_wav ("data") dirsS filesS rowsDup).count
        (mkRec ("data") rowDup ("a.wav")) =
      rowsDup.count rowDup * (filesS rowDup.speaker_id).count ("a.wav") :=
  ⟨by decide,
   claim_C10 ("data") dirsS filesS rowsDup rowDup ("a.wav") (by decide)
     (by decide)⟩
